import Mathlib

/-!
Verification of the Grover-search and molecular-benchmark scripts in
`c2h2VQE.py`.

The Grover part of the script builds circuits from three gate families:
Hadamard (`h`), bit-flip (`x`) and a multi-controlled phase flip
(`cz(qubits[0:-1], qubits[-1])`).  All of these have matrix entries in the
field ℚ(√2), so we embed circuit semantics with amplitudes in ℚ(√2)
represented as pairs of rationals; this keeps the whole simulation exactly
computable and decidable on concrete inputs.

States of an `n`-qubit register are functions from bit assignments
`Fin n → Bool` to amplitudes; `b i` is the value of qubit `i` (the `i`-th
entry of the `cudaq.qvector`), matching the little-endian bit encoding the
script uses for the marked item.
-/

/-- An element `re + rt * √2` of the field ℚ(√2). -/
@[ext]
structure Q2 where
  re : ℚ
  rt : ℚ
deriving DecidableEq

instance : Zero Q2 := ⟨⟨0, 0⟩⟩

instance : One Q2 := ⟨⟨1, 0⟩⟩

instance : Add Q2 := ⟨fun x y => ⟨x.re + y.re, x.rt + y.rt⟩⟩

instance : Neg Q2 := ⟨fun x => ⟨-x.re, -x.rt⟩⟩

instance : Mul Q2 := ⟨fun x y => ⟨x.re * y.re + 2 * (x.rt * y.rt), x.re * y.rt + x.rt * y.re⟩⟩

@[simp] theorem Q2.add_re (x y : Q2) : (x + y).re = x.re + y.re := rfl

@[simp] theorem Q2.add_rt (x y : Q2) : (x + y).rt = x.rt + y.rt := rfl

@[simp] theorem Q2.neg_re (x : Q2) : (-x).re = -x.re := rfl

@[simp] theorem Q2.neg_rt (x : Q2) : (-x).rt = -x.rt := rfl

@[simp] theorem Q2.mul_re (x y : Q2) : (x * y).re = x.re * y.re + 2 * (x.rt * y.rt) := rfl

@[simp] theorem Q2.mul_rt (x y : Q2) : (x * y).rt = x.re * y.rt + x.rt * y.re := rfl

@[simp] theorem Q2.zero_re : (0 : Q2).re = 0 := rfl

@[simp] theorem Q2.zero_rt : (0 : Q2).rt = 0 := rfl

@[simp] theorem Q2.one_re : (1 : Q2).re = 1 := rfl

@[simp] theorem Q2.one_rt : (1 : Q2).rt = 0 := rfl

theorem Q2.neg_neg (x : Q2) : - -x = x := by ext <;> simp

theorem Q2.neg_mul_neg (x y : Q2) : -x * -y = x * y := by ext <;> simp

/-- The amplitude `1/√2 = √2/2` introduced by a Hadamard gate. -/
def invSqrt2 : Q2 := ⟨0, 1 / 2⟩

@[simp] theorem invSqrt2_re : invSqrt2.re = 0 := rfl

@[simp] theorem invSqrt2_rt : invSqrt2.rt = 1 / 2 := rfl

/-- The state of an `n`-qubit register: an amplitude for every assignment of
the `n` qubits. -/
def QState (n : Nat) : Type := (Fin n → Bool) → Q2

/-- Flip bit `i` of an assignment (the action of an `x` gate on basis states). -/
def flipAt (n : Nat) (i : Fin n) (b : Fin n → Bool) : Fin n → Bool :=
  Function.update b i (!(b i))

/-- `x(qubits[i])`: the Pauli-X (bit-flip) gate on qubit `i`. -/
def applyX (n : Nat) (i : Fin n) (ψ : QState n) : QState n :=
  fun b => ψ (flipAt n i b)

/-- `cz(qubits[0:-1], qubits[-1])`: the multi-controlled phase flip with all
qubits but the last as controls and the last as target.  It negates the
amplitude of the all-ones assignment and fixes every other one. -/
def applyCZ (n : Nat) (ψ : QState n) : QState n :=
  fun b => if ∀ i, b i = true then -(ψ b) else ψ b

/-- `h(qubits[i])`: the Hadamard gate on qubit `i`. -/
def applyH (n : Nat) (i : Fin n) (ψ : QState n) : QState n :=
  fun b =>
    invSqrt2 * ψ (Function.update b i false) +
      (if b i = true then -invSqrt2 else invSqrt2) * ψ (Function.update b i true)

/-- Apply the operations `f a` for the items `a` of `l` in order (the
semantics of a loop over a gate list). -/
def chain {α : Type} {β : Type} (f : α → β → β) (l : List α) (x : β) : β :=
  l.foldl (fun y a => f a y) x

/-- `h(q)`: Hadamard on every qubit of the register. -/
def applyHAll (n : Nat) (ψ : QState n) : QState n :=
  chain (applyH n) (List.finRange n) ψ

/-- `x(q)`: Pauli-X on every qubit of the register. -/
def applyXAll (n : Nat) (ψ : QState n) : QState n :=
  chain (applyX n) (List.finRange n) ψ

/-- One step of the loop `for i, bit in enumerate(marked_item): if not bit:
x(qubits[i])` in `grover_oracle`: for a pair `(i, bit)`, apply X to qubit `i`
when `bit` is zero (a qubit index out of range would be a runtime error in the
source; it never happens for the argument lists the script builds, and we let
it act as the identity). -/
def oracleStep (n : Nat) (p : Nat × Nat) (ψ : QState n) : QState n :=
  if p.2 = 0 then
    if h : p.1 < n then applyX n ⟨p.1, h⟩ ψ else ψ
  else ψ

/-- The kernel `grover_oracle(qubits, marked_item)`: X on the qubits whose
marked bit is 0, the multi-controlled Z, then the same X layer again. -/
def grover_oracle (n : Nat) (marked_item : List Nat) (ψ : QState n) : QState n :=
  chain (oracleStep n) marked_item.enum
    (applyCZ n (chain (oracleStep n) marked_item.enum ψ))

/-- The kernel `diffusion_operator(qubits)`: `h(q); x(q);
cz(q[0:-1], q[-1]); x(q); h(q)`. -/
def diffusion_operator (n : Nat) (ψ : QState n) : QState n :=
  applyHAll n (applyXAll n (applyCZ n (applyXAll n (applyHAll n ψ))))

/-- Little-endian binary digits of `m`, with explicit fuel (the digit loop
runs at most `fuel` times; `fuel = m` always suffices). -/
def binLE : Nat → Nat → List Nat
  | 0, _ => []
  | fuel + 1, m => if m = 0 then [] else m % 2 :: binLE fuel (m / 2)

/-- Little-endian binary digits of `m` (empty for `m = 0`). -/
def binDigits (m : Nat) : List Nat := binLE m m

/-- A binary digit as the character Python's `format(·, "b")` prints. -/
def bitChar (d : Nat) : Char := if d = 1 then '1' else '0'

/-- The binary representation of a natural number as Python prints it:
most-significant bit first, and the single character `0` for zero. -/
def natBinChars (m : Nat) : List Char :=
  if m = 0 then ['0'] else ((binDigits m).map bitChar).reverse

/-- Python's `format(m, f"0{width}b")`: the binary form of `m`, zero-padded
to a minimum of `width` characters, with a leading sign for negative `m`
(zero padding goes after the sign). -/
def pyFormatBin (m : Int) (width : Nat) : List Char :=
  if m < 0 then
    '-' :: (List.replicate (width - ((natBinChars m.natAbs).length + 1)) '0'
      ++ natBinChars m.natAbs)
  else
    List.replicate (width - (natBinChars m.toNat).length) '0' ++ natBinChars m.toNat

/-- Python's `int(c)` on a single character: defined on decimal digits and
failing (raising `ValueError`) elsewhere; only `0`, `1` and `-` can occur
here. -/
def pyCharToInt (c : Char) : Option Nat :=
  if c = '0' then some 0 else if c = '1' then some 1 else none

/-- The list comprehension `[int(i) for i in s]`: converts every character,
failing if any single conversion fails. -/
def intsOfChars : List Char → Option (List Nat)
  | [] => some []
  | c :: cs =>
    match pyCharToInt c, intsOfChars cs with
    | some v, some vs => some (v :: vs)
    | _, _ => none

/-- Line 80 of the script:
`marked_item_bits = [int(i) for i in format(marked_item, f"0{num_qubits}b")[::-1]]`. -/
def marked_item_bits (num_qubits : Nat) (marked_item : Int) : Option (List Nat) :=
  intsOfChars (pyFormatBin marked_item num_qubits).reverse

/-- The initial state of `cudaq.qvector(num_qubits)`: all qubits zero. -/
def initState (n : Nat) : QState n :=
  fun b => if ∀ i, b i = false then 1 else 0

/-- One iteration of the loop in `GroversSearch`'s kernel: the oracle
followed by the diffusion operator. -/
def groverIter (n : Nat) (marked : List Nat) (ψ : QState n) : QState n :=
  diffusion_operator n (grover_oracle n marked ψ)

/-- The pre-measurement state produced by the compiled `GroversSearch`
kernel: Hadamard on all qubits, then `n_iterations` oracle+diffusion
rounds, starting from the all-zero register. -/
def groverRun (n : Nat) (marked : List Nat) (iters : Nat) : QState n :=
  (groverIter n marked)^[iters] (applyHAll n (initState n))

/-- `GroversSearch(num_qubits, marked_item, n_iterations)`: encode the
marked item (an error there, as for negative items, means no circuit is
built), then return the circuit, denoted by the state it prepares before
the final measurement. -/
def GroversSearch (num_qubits : Nat) (marked_item : Int) (n_iterations : Nat) :
    Option (QState num_qubits) :=
  match marked_item_bits num_qubits marked_item with
  | some marked => some (groverRun num_qubits marked n_iterations)
  | none => none

/-- The probability of measuring assignment `b` (all amplitudes produced
here are real, so the Born probability is the square of the amplitude). -/
def measureProb (n : Nat) (ψ : QState n) (b : Fin n → Bool) : Q2 :=
  ψ b * ψ b

/-! ### Generic lemmas about sequential gate application -/

theorem chain_pull {α β : Type} (f : α → β → β) (g : β → β) (l : List α)
    (h : ∀ a ∈ l, ∀ x, f a (g x) = g (f a x)) (x : β) :
    chain f l (g x) = g (chain f l x) := by
  induction l generalizing x with
  | nil => rfl
  | cons a t ih =>
    simp only [chain, List.foldl_cons]
    rw [h a (by simp)]
    exact ih (fun b hb y => h b (by simp [hb]) y) (f a x)

theorem chain_chain {α β : Type} (f : α → β → β) (l : List α)
    (hcomm : ∀ a ∈ l, ∀ b ∈ l, ∀ x, f a (f b x) = f b (f a x))
    (hinv : ∀ a ∈ l, ∀ x, f a (f a x) = x) (x : β) :
    chain f l (chain f l x) = x := by
  induction l generalizing x with
  | nil => rfl
  | cons a t ih =>
    have hpull : ∀ y, chain f t (f a y) = f a (chain f t y) := fun y =>
      chain_pull f (f a) t (fun b hb z => hcomm b (by simp [hb]) a (by simp) z) y
    simp only [chain, List.foldl_cons]
    show chain f t (f a (chain f t (f a x))) = x
    rw [hpull, ih (fun b hb c hc y => hcomm b (by simp [hb]) c (by simp [hc]) y)
      (fun b hb y => hinv b (by simp [hb]) y), hinv a (by simp)]

/-! ### The individual gates are self-inverse and commute where needed -/

theorem flipAt_flipAt (n : Nat) (i : Fin n) (b : Fin n → Bool) :
    flipAt n i (flipAt n i b) = b := by
  unfold flipAt
  rw [Function.update_same, Function.update_idem, Bool.not_not, Function.update_eq_self]

theorem flipAt_comm (n : Nat) (i j : Fin n) (b : Fin n → Bool) :
    flipAt n i (flipAt n j b) = flipAt n j (flipAt n i b) := by
  rcases eq_or_ne i j with rfl | hij
  · rfl
  · unfold flipAt
    rw [Function.update_noteq hij, Function.update_noteq hij.symm,
      Function.update_comm hij.symm]

theorem applyX_invol (n : Nat) (i : Fin n) (ψ : QState n) :
    applyX n i (applyX n i ψ) = ψ := by
  funext b
  show ψ (flipAt n i (flipAt n i b)) = ψ b
  rw [flipAt_flipAt]

theorem applyX_comm (n : Nat) (i j : Fin n) (ψ : QState n) :
    applyX n i (applyX n j ψ) = applyX n j (applyX n i ψ) := by
  funext b
  show ψ (flipAt n j (flipAt n i b)) = ψ (flipAt n i (flipAt n j b))
  rw [flipAt_comm]

theorem applyCZ_invol (n : Nat) (ψ : QState n) :
    applyCZ n (applyCZ n ψ) = ψ := by
  funext b
  by_cases h : ∀ i, b i = true <;> simp [applyCZ, h, Q2.neg_neg]

theorem applyH_invol (n : Nat) (i : Fin n) (ψ : QState n) :
    applyH n i (applyH n i ψ) = ψ := by
  funext b
  simp only [applyH, Function.update_idem, Function.update_same]
  cases hb : b i with
  | false =>
    have hb2 : Function.update b i false = b := by
      rw [← hb]; exact Function.update_eq_self i b
    simp only [hb, hb2]
    ext <;> simp <;> ring
  | true =>
    have hb2 : Function.update b i true = b := by
      rw [← hb]; exact Function.update_eq_self i b
    simp only [hb, hb2]
    ext <;> simp <;> ring

theorem applyH_comm (n : Nat) (i j : Fin n) (ψ : QState n) :
    applyH n i (applyH n j ψ) = applyH n j (applyH n i ψ) := by
  rcases eq_or_ne i j with rfl | hij
  · rfl
  · funext b
    simp only [applyH, Function.update_noteq hij, Function.update_noteq hij.symm,
      Function.update_comm (show j ≠ i from hij.symm)]
    cases hbi : b i <;> cases hbj : b j <;> (ext <;> simp <;> ring)

theorem applyHAll_invol (n : Nat) (ψ : QState n) :
    applyHAll n (applyHAll n ψ) = ψ := by
  unfold applyHAll
  exact chain_chain (applyH n) (List.finRange n)
    (fun i _ j _ φ => applyH_comm n i j φ) (fun i _ φ => applyH_invol n i φ) ψ

theorem applyXAll_invol (n : Nat) (ψ : QState n) :
    applyXAll n (applyXAll n ψ) = ψ := by
  unfold applyXAll
  exact chain_chain (applyX n) (List.finRange n)
    (fun i _ j _ φ => applyX_comm n i j φ) (fun i _ φ => applyX_invol n i φ) ψ

theorem oracleStep_cases (n : Nat) (p : Nat × Nat) :
    oracleStep n p = (fun ψ => ψ) ∨ ∃ i : Fin n, oracleStep n p = applyX n i := by
  by_cases h2 : p.2 = 0
  · by_cases h1 : p.1 < n
    · right
      exact ⟨⟨p.1, h1⟩, by funext ψ; simp [oracleStep, h2, h1]⟩
    · left
      funext ψ
      simp [oracleStep, h2, h1]
  · left
    funext ψ
    simp [oracleStep, h2]

theorem oracleStep_comm (n : Nat) (p q : Nat × Nat) (ψ : QState n) :
    oracleStep n p (oracleStep n q ψ) = oracleStep n q (oracleStep n p ψ) := by
  rcases oracleStep_cases n p with hp | ⟨i, hp⟩ <;>
    rcases oracleStep_cases n q with hq | ⟨j, hq⟩ <;> simp [hp, hq, applyX_comm]

theorem oracleStep_invol (n : Nat) (p : Nat × Nat) (ψ : QState n) :
    oracleStep n p (oracleStep n p ψ) = ψ := by
  rcases oracleStep_cases n p with hp | ⟨i, hp⟩ <;> simp [hp, applyX_invol]

theorem oracleLayer_invol (n : Nat) (marked : List Nat) (ψ : QState n) :
    chain (oracleStep n) marked.enum (chain (oracleStep n) marked.enum ψ) = ψ :=
  chain_chain (oracleStep n) marked.enum
    (fun p _ q _ φ => oracleStep_comm n p q φ) (fun p _ φ => oracleStep_invol n p φ) ψ

/-- The oracle is self-inverse, for any marked-bit list at all. -/
theorem grover_oracle_invol (n : Nat) (marked : List Nat) (ψ : QState n) :
    grover_oracle n marked (grover_oracle n marked ψ) = ψ := by
  unfold grover_oracle
  rw [oracleLayer_invol, applyCZ_invol, oracleLayer_invol]

/-- The diffusion operator is self-inverse. -/
theorem diffusion_operator_invol (n : Nat) (ψ : QState n) :
    diffusion_operator n (diffusion_operator n ψ) = ψ := by
  unfold diffusion_operator
  rw [applyHAll_invol, applyXAll_invol, applyCZ_invol, applyXAll_invol, applyHAll_invol]

/-! ### Pointwise description of the oracle -/

/-- The permutation of basis assignments effected by one step of the oracle
X-layer loop. -/
def oracleFlip (n : Nat) (p : Nat × Nat) (b : Fin n → Bool) : Fin n → Bool :=
  if p.2 = 0 then
    if h : p.1 < n then flipAt n ⟨p.1, h⟩ b else b
  else b

theorem oracleStep_apply (n : Nat) (p : Nat × Nat) (ψ : QState n) (b : Fin n → Bool) :
    oracleStep n p ψ b = ψ (oracleFlip n p b) := by
  unfold oracleStep oracleFlip
  split_ifs <;> rfl

theorem chain_oracleStep (n : Nat) (l : List (Nat × Nat)) (ψ : QState n) (b : Fin n → Bool) :
    chain (oracleStep n) l ψ b = ψ (l.foldr (oracleFlip n) b) := by
  induction l generalizing ψ with
  | nil => rfl
  | cons p t ih =>
    have h1 : chain (oracleStep n) (p :: t) ψ = chain (oracleStep n) t (oracleStep n p ψ) := rfl
    rw [h1, ih (oracleStep n p ψ), List.foldr_cons]
    exact oracleStep_apply n p ψ _

theorem foldr_oracleFlip_enumFrom (n : Nat) (marked : List Nat) (k : Nat)
    (hkn : k + marked.length ≤ n) (b : Fin n → Bool) (i : Fin n) :
    ((List.enumFrom k marked).foldr (oracleFlip n) b) i =
      if k ≤ i.val ∧ i.val < k + marked.length ∧ marked.getD (i.val - k) 1 = 0
      then !(b i) else b i := by
  induction marked generalizing k b with
  | nil =>
    rw [if_neg]
    · rfl
    · rintro ⟨h1, h2, -⟩
      simp only [List.length_nil] at h2
      omega
  | cons m0 rest ih =>
    have hkn' : k + 1 + rest.length ≤ n := by
      simp only [List.length_cons] at hkn
      omega
    have hk_lt : k < n := by
      simp only [List.length_cons] at hkn
      omega
    rw [List.enumFrom_cons, List.foldr_cons]
    by_cases hm0 : m0 = 0
    · have hflip : oracleFlip n (k, m0) = flipAt n ⟨k, hk_lt⟩ := by
        funext c
        simp [oracleFlip, hm0, hk_lt]
      rw [hflip]
      by_cases hik : i = (⟨k, hk_lt⟩ : Fin n)
      · subst hik
        rw [show ∀ c : Fin n → Bool, flipAt n ⟨k, hk_lt⟩ c ⟨k, hk_lt⟩ = !(c ⟨k, hk_lt⟩) from
          fun c => Function.update_same _ _ _]
        rw [ih (k + 1) hkn' b]
        simp only [show ((⟨k, hk_lt⟩ : Fin n) : Nat) = k from rfl]
        rw [if_neg (by omega)]
        rw [if_pos ⟨le_refl k, by simp only [List.length_cons]; omega, by
          simp [Nat.sub_self, hm0]⟩]
      · have hni : flipAt n ⟨k, hk_lt⟩ ((List.enumFrom (k + 1) rest).foldr (oracleFlip n) b) i
            = ((List.enumFrom (k + 1) rest).foldr (oracleFlip n) b) i :=
          Function.update_noteq hik _ _
        rw [hni, ih (k + 1) hkn' b]
        have hvk : i.val ≠ k := fun h => hik (Fin.ext h)
        refine if_congr ?_ rfl rfl
        constructor
        · rintro ⟨h1, h2, h3⟩
          refine ⟨by omega, by simp only [List.length_cons]; omega, ?_⟩
          have hidx : i.val - k = (i.val - (k + 1)) + 1 := by omega
          rw [hidx, List.getD_cons_succ]
          exact h3
        · rintro ⟨h1, h2, h3⟩
          have h1' : k + 1 ≤ i.val := by omega
          refine ⟨h1', by simp only [List.length_cons] at h2; omega, ?_⟩
          have hidx : i.val - k = (i.val - (k + 1)) + 1 := by omega
          rw [hidx, List.getD_cons_succ] at h3
          exact h3
    · have hflip : oracleFlip n (k, m0) ((List.enumFrom (k + 1) rest).foldr (oracleFlip n) b)
          = (List.enumFrom (k + 1) rest).foldr (oracleFlip n) b := by
        simp [oracleFlip, hm0]
      rw [hflip, ih (k + 1) hkn' b]
      refine if_congr ?_ rfl rfl
      constructor
      · rintro ⟨h1, h2, h3⟩
        refine ⟨by omega, by simp only [List.length_cons]; omega, ?_⟩
        have hidx : i.val - k = (i.val - (k + 1)) + 1 := by omega
        rw [hidx, List.getD_cons_succ]
        exact h3
      · rintro ⟨h1, h2, h3⟩
        rcases Nat.lt_or_ge i.val (k + 1) with hlt | hge
        · exfalso
          have hik : i.val = k := by omega
          rw [hik, Nat.sub_self, List.getD_cons_zero] at h3
          exact hm0 h3
        · refine ⟨hge, by simp only [List.length_cons] at h2; omega, ?_⟩
          have hidx : i.val - k = (i.val - (k + 1)) + 1 := by omega
          rw [hidx, List.getD_cons_succ] at h3
          exact h3

/-- The permutation of assignments the oracle X-layer effects: flip every
position whose marked bit is 0. -/
def markedFlip (n : Nat) (marked : List Nat) (b : Fin n → Bool) : Fin n → Bool :=
  fun i => if marked.getD i.val 1 = 0 then !(b i) else b i

/-- The net effect of the oracle X-layer loop, for a marked list that covers
the whole register. -/
theorem oracleLayer_apply (n : Nat) (marked : List Nat) (hlen : marked.length = n)
    (ψ : QState n) (b : Fin n → Bool) :
    chain (oracleStep n) marked.enum ψ b = ψ (markedFlip n marked b) := by
  rw [chain_oracleStep]
  congr 1
  funext i
  rw [show marked.enum = List.enumFrom 0 marked from rfl,
    foldr_oracleFlip_enumFrom n marked 0 (by omega) b i]
  have hi : i.val < marked.length := hlen ▸ i.isLt
  simp only [markedFlip, Nat.zero_add, Nat.zero_le, Nat.sub_zero, true_and, hi]

theorem markedFlip_invol (n : Nat) (marked : List Nat) (b : Fin n → Bool) :
    markedFlip n marked (markedFlip n marked b) = b := by
  funext i
  simp only [markedFlip]
  by_cases h : marked.getD i.val 1 = 0
  · rw [if_pos h, if_pos h, Bool.not_not]
  · rw [if_neg h, if_neg h]

theorem markedFlip_all_true (n : Nat) (marked : List Nat) (b : Fin n → Bool) :
    (∀ i, markedFlip n marked b i = true) ↔
      (∀ i : Fin n, b i = (if marked.getD i.val 1 = 0 then false else true)) := by
  refine forall_congr' fun i => ?_
  simp only [markedFlip]
  by_cases h : marked.getD i.val 1 = 0
  · rw [if_pos h, if_pos h]
    cases hb : b i <;> simp
  · rw [if_neg h, if_neg h]

/-- Pointwise action of `grover_oracle`: it is diagonal, negating exactly
the assignment that matches the marked bit list. -/
theorem grover_oracle_apply (n : Nat) (marked : List Nat) (hlen : marked.length = n)
    (ψ : QState n) (b : Fin n → Bool) :
    grover_oracle n marked ψ b =
      if (∀ i : Fin n, b i = (if marked.getD i.val 1 = 0 then false else true))
      then -(ψ b) else ψ b := by
  simp only [grover_oracle, oracleLayer_apply n marked hlen, applyCZ, markedFlip_invol]
  exact if_congr (markedFlip_all_true n marked b) rfl rfl

/-! ### Properties of the bit-string encoding -/

theorem binLE_getD (fuel : Nat) : ∀ m i : Nat, m ≤ fuel →
    (binLE fuel m).getD i 0 = m / 2 ^ i % 2 := by
  induction fuel with
  | zero =>
    intro m i h
    have hm : m = 0 := by omega
    subst hm
    simp [binLE]
  | succ fuel ih =>
    intro m i h
    by_cases hm : m = 0
    · subst hm
      simp [binLE]
    · simp only [binLE, if_neg hm]
      cases i with
      | zero => simp
      | succ i =>
        rw [List.getD_cons_succ, ih (m / 2) i (by omega), Nat.div_div_eq_div_mul,
          pow_succ, Nat.mul_comm]

theorem binLE_length_le (fuel : Nat) : ∀ m k : Nat, m ≤ fuel → m < 2 ^ k →
    (binLE fuel m).length ≤ k := by
  induction fuel with
  | zero =>
    intro m k h hk
    have hm : m = 0 := by omega
    subst hm
    simp [binLE]
  | succ fuel ih =>
    intro m k h hk
    by_cases hm : m = 0
    · subst hm
      simp [binLE]
    · simp only [binLE, if_neg hm, List.length_cons]
      cases k with
      | zero =>
        exfalso
        simp only [pow_zero] at hk
        omega
      | succ k =>
        have hdiv : m / 2 < 2 ^ k := by
          rw [Nat.div_lt_iff_lt_mul (by omega)]
          calc m < 2 ^ (k + 1) := hk
            _ = 2 ^ k * 2 := by rw [pow_succ]
        exact Nat.succ_le_succ (ih (m / 2) k (by omega) hdiv)

theorem binLE_lt_two_pow_length (fuel : Nat) : ∀ m : Nat, m ≤ fuel →
    m < 2 ^ (binLE fuel m).length := by
  induction fuel with
  | zero =>
    intro m h
    have hm : m = 0 := by omega
    subst hm
    simp [binLE]
  | succ fuel ih =>
    intro m h
    by_cases hm : m = 0
    · subst hm
      simp [binLE]
    · simp only [binLE, if_neg hm, List.length_cons, pow_succ]
      have := ih (m / 2) (by omega)
      omega

theorem binLE_all_lt_two (fuel : Nat) : ∀ m : Nat, ∀ d ∈ binLE fuel m, d < 2 := by
  induction fuel with
  | zero =>
    intro m d hd
    simp [binLE] at hd
  | succ fuel ih =>
    intro m d hd
    by_cases hm : m = 0
    · subst hm
      simp [binLE] at hd
    · simp only [binLE, if_neg hm, List.mem_cons] at hd
      rcases hd with rfl | hd
      · omega
      · exact ih (m / 2) d hd

theorem binDigits_getD (m i : Nat) : (binDigits m).getD i 0 = m / 2 ^ i % 2 :=
  binLE_getD m m i (le_refl m)

theorem binDigits_length_le (m k : Nat) (hk : m < 2 ^ k) : (binDigits m).length ≤ k :=
  binLE_length_le m m k (le_refl m) hk

theorem binDigits_lt_two_pow_length (m : Nat) : m < 2 ^ (binDigits m).length :=
  binLE_lt_two_pow_length m m (le_refl m)

theorem binDigits_all_lt_two (m : Nat) : ∀ d ∈ binDigits m, d < 2 :=
  binLE_all_lt_two m m

/-! ### Converting character lists back to integer lists -/

theorem intsOfChars_map_bitChar (l : List Nat) (h : ∀ d ∈ l, d < 2) :
    intsOfChars (l.map bitChar) = some l := by
  induction l with
  | nil => rfl
  | cons d t ih =>
    have hd : d < 2 := h d (by simp)
    have ht : intsOfChars (t.map bitChar) = some t := ih (fun x hx => h x (by simp [hx]))
    rcases (by omega : d = 0 ∨ d = 1) with rfl | rfl <;>
      simp [intsOfChars, bitChar, pyCharToInt, ht]

theorem intsOfChars_append_some (l1 l2 : List Char) (v1 v2 : List Nat)
    (h1 : intsOfChars l1 = some v1) (h2 : intsOfChars l2 = some v2) :
    intsOfChars (l1 ++ l2) = some (v1 ++ v2) := by
  induction l1 generalizing v1 with
  | nil =>
    simp only [intsOfChars, Option.some.injEq] at h1
    subst h1
    simpa using h2
  | cons c t ih =>
    cases hc : pyCharToInt c with
    | none => rw [intsOfChars, hc] at h1; simp at h1
    | some v =>
      cases htl : intsOfChars t with
      | none => rw [intsOfChars, hc, htl] at h1; simp at h1
      | some vs =>
        rw [intsOfChars, hc, htl] at h1
        simp only [Option.some.injEq] at h1
        subst h1
        rw [List.cons_append, intsOfChars, hc, ih vs htl]
        simp

theorem intsOfChars_replicate_zero (k : Nat) :
    intsOfChars (List.replicate k '0') = some (List.replicate k 0) := by
  induction k with
  | zero => rfl
  | succ k ih => simp [List.replicate_succ, intsOfChars, pyCharToInt, ih]

theorem intsOfChars_append_dash (l : List Char) :
    intsOfChars (l ++ ['-']) = none := by
  induction l with
  | nil => rfl
  | cons c t ih =>
    rw [List.cons_append, intsOfChars, ih]
    cases hc : pyCharToInt c <;> simp

/-- For an in-range marked item, line 80 of the script produces exactly the
`num_qubits` little-endian binary digits of the item. -/
theorem marked_item_bits_of_lt (n m : Nat) (hn : 1 ≤ n) (hm : m < 2 ^ n) :
    marked_item_bits n (m : Int) =
      some ((List.range n).map (fun i => m / 2 ^ i % 2)) := by
  unfold marked_item_bits pyFormatBin
  rw [if_neg (by omega : ¬((m : Int) < 0)), show ((m : Int)).toNat = m from by omega]
  by_cases hm0 : m = 0
  · subst hm0
    rw [show natBinChars 0 = ['0'] from rfl, List.reverse_append, List.reverse_replicate,
      show (['0'] : List Char).reverse = ['0'] from rfl]
    rw [show (['0'] : List Char) ++ List.replicate (n - (['0'] : List Char).length) '0'
        = List.replicate n '0' from by
      rw [show (['0'] : List Char) = List.replicate 1 '0' from rfl, ← List.replicate_add]
      congr 1
      simp only [List.length_replicate]
      omega]
    rw [intsOfChars_replicate_zero]
    congr 1
    apply List.ext_getElem
    · simp
    · intro i h1 h2
      simp
  · rw [show natBinChars m = ((binDigits m).map bitChar).reverse from by
      rw [natBinChars, if_neg hm0]]
    rw [List.reverse_append, List.reverse_replicate, List.reverse_reverse]
    have hlen_le : (binDigits m).length ≤ n := binDigits_length_le m n hm
    have h1 : intsOfChars ((binDigits m).map bitChar) = some (binDigits m) :=
      intsOfChars_map_bitChar _ (binDigits_all_lt_two m)
    rw [intsOfChars_append_some _ _ _ _ h1 (intsOfChars_replicate_zero _)]
    congr 1
    apply List.ext_getElem
    · simp only [List.length_append, List.length_replicate, List.length_reverse,
        List.length_map, List.length_range]
      omega
    · intro i h1i h2i
      simp only [List.getElem_map, List.getElem_range]
      by_cases hi : i < (binDigits m).length
      · rw [List.getElem_append_left hi]
        have hD := binDigits_getD m i
        rw [List.getD_eq_getElem?_getD, List.getElem?_eq_getElem hi, Option.getD_some] at hD
        exact hD
      · rw [List.getElem_append_right (by omega : (binDigits m).length ≤ i),
          List.getElem_replicate]
        have hmlt : m < 2 ^ i :=
          lt_of_lt_of_le (binDigits_lt_two_pow_length m)
            (Nat.pow_le_pow_right (by omega) (by omega))
        rw [Nat.div_eq_of_lt hmlt]

/-! ### Claim theorems -/

/-- Claim C1: for every `num_qubits ≥ 2` and every `marked_item` in
`[0, 2^num_qubits - 1]`, `grover_oracle` applied to the encoded marked item
flips the sign of exactly the amplitude of the basis state whose little-endian
bits equal the encoding of the marked item (bit `i` is `marked_item.testBit i`)
and leaves every other amplitude unchanged. -/
theorem C1_grover_oracle_flips_only_marked (n : Nat) (_hn : 2 ≤ n) (m : Nat)
    (hm : m ≤ 2 ^ n - 1) (marked : List Nat)
    (henc : marked_item_bits n (m : Int) = some marked)
    (ψ : QState n) (b : Fin n → Bool) :
    grover_oracle n marked ψ b =
      if (∀ i : Fin n, b i = m.testBit i.val) then -(ψ b) else ψ b := by
  have hpow : 0 < 2 ^ n := pow_pos (by omega) n
  have hm2 : m < 2 ^ n := by omega
  have henc2 := marked_item_bits_of_lt n m (by omega) hm2
  rw [henc2] at henc
  have hmk : marked = (List.range n).map (fun i => m / 2 ^ i % 2) :=
    (Option.some.inj henc).symm
  have hlen : marked.length = n := by rw [hmk]; simp
  rw [grover_oracle_apply n marked hlen]
  refine if_congr (forall_congr' fun i => ?_) rfl rfl
  have hgetD : marked.getD i.val 1 = m / 2 ^ i.val % 2 := by
    rw [hmk, List.getD_eq_getElem?_getD, List.getElem?_map,
      List.getElem?_eq_getElem (by simp), List.getElem_range]
    simp
  rw [hgetD, Nat.testBit_to_div_mod]
  rcases Nat.mod_two_eq_zero_or_one (m / 2 ^ i.val) with h | h <;> rw [h] <;> simp

/-- Witness for C1 at `num_qubits = 2`, `marked_item = 1`, on the all-zero
initial state and the all-false assignment. -/
theorem C1_witness :
    grover_oracle 2 [1, 0] (initState 2) (fun _ => false) =
      if (∀ i : Fin 2, (fun _ : Fin 2 => false) i = Nat.testBit 1 i.val)
      then -(initState 2 (fun _ => false)) else initState 2 (fun _ => false) :=
  C1_grover_oracle_flips_only_marked 2 (by decide) 1 (by decide) [1, 0] (by decide)
    (initState 2) (fun _ => false)

/-- Counterexample to claim C2 as stated: for `num_qubits = 1` and
`marked_item = 2 > 2^1 - 1`, the encoding succeeds but yields the bit list
`[0, 1]` of length 2, not a (truncated or wrapped) list of length
`num_qubits = 1`. -/
theorem C2_counterexample :
    marked_item_bits 1 (2 : Int) = some [0, 1] ∧ ¬(([0, 1] : List Nat).length = 1) := by
  decide

/-- Claim C2 amended: for `marked_item > 2^num_qubits - 1` no validation
error is raised, but Python's fixed-width formatting only pads to a minimum
width and never truncates or wraps, so the encoding is the full little-endian
digit list of the marked item, whose length exceeds `num_qubits`. -/
theorem C2_amended_no_truncation (n : Nat) (_hn : 1 ≤ n) (m : Nat)
    (hm : 2 ^ n - 1 < m) :
    marked_item_bits n (m : Int) = some (binDigits m) ∧ n < (binDigits m).length := by
  have hpow : 0 < 2 ^ n := pow_pos (by omega) n
  have hm0 : m ≠ 0 := by omega
  have hlen : n < (binDigits m).length := by
    by_contra hcon
    push_neg at hcon
    have : m < 2 ^ n :=
      lt_of_lt_of_le (binDigits_lt_two_pow_length m) (Nat.pow_le_pow_right (by omega) hcon)
    omega
  refine ⟨?_, hlen⟩
  unfold marked_item_bits pyFormatBin
  rw [if_neg (by omega : ¬((m : Int) < 0)), show ((m : Int)).toNat = m from by omega]
  rw [show natBinChars m = ((binDigits m).map bitChar).reverse from by
    rw [natBinChars, if_neg hm0]]
  rw [show n - (((binDigits m).map bitChar).reverse).length = 0 from by
    simp only [List.length_reverse, List.length_map]
    omega]
  rw [List.replicate_zero, List.nil_append, List.reverse_reverse]
  exact intsOfChars_map_bitChar _ (binDigits_all_lt_two m)

/-- Witness for the amended C2 at `num_qubits = 1`, `marked_item = 2`. -/
theorem C2_amended_witness :
    marked_item_bits 1 (2 : Int) = some (binDigits 2) ∧ 1 < (binDigits 2).length :=
  C2_amended_no_truncation 1 (by decide) 2 (by decide)

/-- Claim C4: for every `num_qubits ≥ 2`, applying the diffusion operator
twice returns any state to its original amplitudes. -/
theorem C4_diffusion_self_inverse (n : Nat) (_hn : 2 ≤ n) (ψ : QState n) :
    diffusion_operator n (diffusion_operator n ψ) = ψ :=
  diffusion_operator_invol n ψ

/-- Witness for C4 at `num_qubits = 2` on the all-zero initial state. -/
theorem C4_witness :
    diffusion_operator 2 (diffusion_operator 2 (initState 2)) = initState 2 :=
  C4_diffusion_self_inverse 2 (by decide) (initState 2)

/-- Claim C5: for every `num_qubits ≥ 2` and every marked bit list of length
`num_qubits`, applying the oracle twice (with no diffusion between) is the
identity on any input state. -/
theorem C5_oracle_self_inverse (n : Nat) (_hn : 2 ≤ n) (marked : List Nat)
    (_hlen : marked.length = n) (ψ : QState n) :
    grover_oracle n marked (grover_oracle n marked ψ) = ψ :=
  grover_oracle_invol n marked ψ

/-- Witness for C5 at `num_qubits = 2`, marked list `[0, 1]`. -/
theorem C5_witness :
    grover_oracle 2 [0, 1] (grover_oracle 2 [0, 1] (initState 2)) = initState 2 :=
  C5_oracle_self_inverse 2 (by decide) [0, 1] (by decide) (initState 2)

/-- Claim C6: for `1 ≤ num_qubits` and `marked_item < 2^num_qubits` the
encoding computed by `GroversSearch` is the length-`num_qubits` little-endian
(least-significant-bit-first) binary representation of the marked item. -/
theorem C6_little_endian_encoding (n m : Nat) (hn : 1 ≤ n) (hm : m < 2 ^ n) :
    marked_item_bits n (m : Int) = some ((List.range n).map fun i => m / 2 ^ i % 2) :=
  marked_item_bits_of_lt n m hn hm

/-- Witness for C6 at `num_qubits = 3`, `marked_item = 5`: the encoding is
`[1, 0, 1]`. -/
theorem C6_witness : marked_item_bits 3 (5 : Int) = some [1, 0, 1] := by
  show marked_item_bits 3 ((5 : Nat) : Int) = some [1, 0, 1]
  rw [C6_little_endian_encoding 3 5 (by decide) (by decide)]
  decide

/-- Claim C9: for every `num_qubits ≥ 1` and negative `marked_item`, the
bit-string encoding fails (Python's `int` raises on the sign character of the
binary representation), so `GroversSearch` returns no circuit. -/
theorem C9_negative_marked_item_error (n : Nat) (_hn : 1 ≤ n) (m : Int) (hm : m < 0) :
    marked_item_bits n m = none ∧ ∀ iters, GroversSearch n m iters = none := by
  have h1 : marked_item_bits n m = none := by
    unfold marked_item_bits pyFormatBin
    rw [if_pos hm, List.reverse_cons]
    exact intsOfChars_append_dash _
  refine ⟨h1, fun iters => ?_⟩
  unfold GroversSearch
  rw [h1]

/-- Witness for C9 at `num_qubits = 3`, `marked_item = -5`. -/
theorem C9_witness :
    marked_item_bits 3 (-5 : Int) = none ∧ ∀ iters, GroversSearch 3 (-5 : Int) iters = none :=
  C9_negative_marked_item_error 3 (by decide) (-5) (by decide)

/-- Claim C10: the oracle is diagonal in the computational basis: it maps
every basis state to itself up to sign, so it never changes the
computational-basis measurement probability of any assignment. -/
theorem C10_oracle_diagonal (n : Nat) (_hn : 2 ≤ n) (marked : List Nat)
    (hlen : marked.length = n) (ψ : QState n) (b : Fin n → Bool) :
    (grover_oracle n marked ψ b = ψ b ∨ grover_oracle n marked ψ b = -(ψ b)) ∧
      measureProb n (grover_oracle n marked ψ) b = measureProb n ψ b := by
  have h := grover_oracle_apply n marked hlen ψ b
  by_cases hc : ∀ i : Fin n, b i = (if marked.getD i.val 1 = 0 then false else true)
  · rw [if_pos hc] at h
    refine ⟨Or.inr h, ?_⟩
    simp only [measureProb, h, Q2.neg_mul_neg]
  · rw [if_neg hc] at h
    exact ⟨Or.inl h, by simp only [measureProb, h]⟩

/-- Witness for C10 at `num_qubits = 2`, marked list `[0, 1]`, on the
all-zero initial state at the all-false assignment. -/
theorem C10_witness :
    (grover_oracle 2 [0, 1] (initState 2) (fun _ => false)
        = initState 2 (fun _ => false) ∨
      grover_oracle 2 [0, 1] (initState 2) (fun _ => false)
        = -(initState 2 (fun _ => false))) ∧
      measureProb 2 (grover_oracle 2 [0, 1] (initState 2)) (fun _ => false)
        = measureProb 2 (initState 2) (fun _ => false) :=
  C10_oracle_diagonal 2 (by decide) [0, 1] (by decide) (initState 2) (fun _ => false)

/-! ### Concrete two-qubit run (claim C3) -/

theorem finRange_two : List.finRange 2 = [(0 : Fin 2), (1 : Fin 2)] := by decide

/-- After the initial Hadamard layer the two-qubit register is the uniform
superposition with amplitude `1/2` everywhere. -/
theorem uniform_two : applyHAll 2 (initState 2) = fun _ => (⟨1/2, 0⟩ : Q2) := by
  funext b
  simp only [applyHAll, chain, finRange_two, List.foldl_cons, List.foldl_nil]
  simp only [applyH, initState, Fin.forall_fin_two, Function.update_same,
    Function.update_noteq (show (1 : Fin 2) ≠ 0 by decide), Function.update_noteq
    (show (0 : Fin 2) ≠ 1 by decide)]
  cases hb0 : b 0 <;> cases hb1 : b 1 <;> (ext <;> simp)

/-- The oracle for marked item 0 negates the all-false amplitude of the
uniform two-qubit state. -/
theorem s1_two : grover_oracle 2 [0, 0] (fun _ => (⟨1/2, 0⟩ : Q2)) =
    fun b => if (∀ i : Fin 2, b i = false) then (⟨-(1/2), 0⟩ : Q2) else ⟨1/2, 0⟩ := by
  funext b
  rw [grover_oracle_apply 2 [0, 0] rfl]
  have hcond : (∀ i : Fin 2, b i =
        (if ([0, 0] : List Nat).getD i.val 1 = 0 then false else true))
      ↔ (∀ i : Fin 2, b i = false) :=
    forall_congr' fun i => by fin_cases i <;> simp
  rw [if_congr hcond rfl rfl]
  split_ifs <;> (ext <;> simp)

/-- The diffusion operator concentrates the post-oracle state entirely on the
all-false assignment (with amplitude `-1`, a global phase). -/
theorem s2_two : diffusion_operator 2 (fun b =>
      if (∀ i : Fin 2, b i = false) then (⟨-(1/2), 0⟩ : Q2) else ⟨1/2, 0⟩) =
    fun b => if (∀ i : Fin 2, b i = false) then (⟨-1, 0⟩ : Q2) else 0 := by
  funext b
  simp only [diffusion_operator, applyHAll, applyXAll, chain, finRange_two,
    List.foldl_cons, List.foldl_nil]
  simp only [applyH, applyX, applyCZ, flipAt, Fin.forall_fin_two]
  simp only [Function.update_apply]
  cases hb0 : b 0 <;> cases hb1 : b 1 <;>
    simp [show ((0 : Fin 2) = 1) = False by simp, show ((1 : Fin 2) = 0) = False by simp] <;>
    (ext <;> simp <;> ring_nf)

/-- Claim C3: for `num_qubits = 2`, `marked_item = 0` (encoded `[0, 0]`) and
`n_iterations = 1`, the circuit's measurement distribution is entirely
concentrated on basis state 0 (the all-false assignment has probability 1 and
every other assignment probability 0), while with `n_iterations = 0` the
circuit measures the uniform superposition, giving every assignment
probability `1/4`. -/
theorem C3_peaked_distribution :
    marked_item_bits 2 (0 : Int) = some [0, 0] ∧
    (∀ b : Fin 2 → Bool,
      measureProb 2 (groverRun 2 [0, 0] 1) b = if (∀ i, b i = false) then 1 else 0) ∧
    (∀ b : Fin 2 → Bool, measureProb 2 (groverRun 2 [0, 0] 0) b = ⟨1/4, 0⟩) := by
  refine ⟨by decide, ?_, ?_⟩
  · intro b
    have hrun : groverRun 2 [0, 0] 1 =
        fun b => if (∀ i : Fin 2, b i = false) then (⟨-1, 0⟩ : Q2) else 0 := by
      rw [groverRun, Function.iterate_one, groverIter, uniform_two, s1_two, s2_two]
    rw [hrun, measureProb]
    split_ifs <;> (ext <;> simp)
  · intro b
    rw [groverRun, Function.iterate_zero, id_eq, measureProb, uniform_two]
    ext <;> norm_num

/-! ### The molecular benchmark (Component 1) -/

/-- Modelled from the spec: `np.random.seed(42)` followed by
`np.random.normal(0, 1, parameter_count)` draws the initial parameter vector
from numpy's global generator, which the spec asserts is a deterministic
function of the seed; `cudaq.observe(kernel, spin_ham, ..., x0).expectation()`
is likewise a deterministic function of the parameter vector for the fixed
kernel and Hamiltonian.  Both live in external libraries, so we model them as
explicit functions `rng` (seed to parameter vector) and `expVal` (parameter
vector to expectation value), and the benchmark body as the pair the script
computes at lines 47-56: the seeded `x0` and the expectation value observed
at `x0`. -/
def molecularBenchmarkRun (rng : Nat → List ℚ) (expVal : List ℚ → ℚ)
    (seed : Nat) : List ℚ × ℚ :=
  let x0 := rng seed
  (x0, expVal x0)

/-- Modelled from the spec: `timeit.default_timer()` reads a monotonic
wall-clock; the script reads it before and after the evaluation loop and its
only output statement is `print(end_time - start_time)`, so a run prints
exactly the one value `end_time - start_time`.  The two reads are modelled as
rationals supplied from outside, with the spec's monotonicity (the second
read is at least the first) as a hypothesis of the claim theorem. -/
def component1Prints (startTime endTime : ℚ) : List ℚ :=
  [endTime - startTime]

/-- Claim C7: two runs of the molecular benchmark with the same fixed seed 42
produce bit-identical initial parameter vectors `x0`, and therefore the same
expectation value: the evaluation is a deterministic function of the seeded
parameters. -/
theorem C7_seeded_determinism (rng : Nat → List ℚ) (expVal : List ℚ → ℚ)
    (r1 r2 : List ℚ × ℚ)
    (h1 : r1 = molecularBenchmarkRun rng expVal 42)
    (h2 : r2 = molecularBenchmarkRun rng expVal 42) :
    r1.1 = r2.1 ∧ r1.2 = r2.2 := by
  subst h1
  subst h2
  exact ⟨rfl, rfl⟩

/-- Witness for C7 with a concrete generator and evaluator. -/
theorem C7_witness :
    (molecularBenchmarkRun (fun s => [(s : ℚ)]) (fun v => v.length) 42).1
        = (molecularBenchmarkRun (fun s => [(s : ℚ)]) (fun v => v.length) 42).1 ∧
      (molecularBenchmarkRun (fun s => [(s : ℚ)]) (fun v => v.length) 42).2
        = (molecularBenchmarkRun (fun s => [(s : ℚ)]) (fun v => v.length) 42).2 :=
  C7_seeded_determinism (fun s => [(s : ℚ)]) (fun v => v.length) _ _ rfl rfl

/-- Claim C8: on a successful run Component 1 prints exactly one number, the
elapsed seconds of the evaluation loop, and under the timer monotonicity the
spec asserts (the end read is at least the start read) that number is
non-negative. -/
theorem C8_single_nonneg_print (startTime endTime : ℚ)
    (hmono : startTime ≤ endTime) :
    (component1Prints startTime endTime).length = 1 ∧
      ∀ v ∈ component1Prints startTime endTime, 0 ≤ v := by
  refine ⟨rfl, ?_⟩
  intro v hv
  simp only [component1Prints, List.mem_singleton] at hv
  subst hv
  simpa using hmono

/-- Witness for C8 with timer reads 0 and 1. -/
theorem C8_witness :
    (component1Prints 0 1).length = 1 ∧ ∀ v ∈ component1Prints 0 1, 0 ≤ v :=
  C8_single_nonneg_print 0 1 zero_le_one
